import Mathlib

/-!
# Markdown header splitting, modelled from the specification

The repository contains only a notebook driving `MarkdownHeaderTextSplitter`
and `RecursiveCharacterTextSplitter`; the implementations themselves are not
part of the repository's sources.  Following the specification, this file
embeds the two components — the header-scope tracker plus line-oriented
splitter, and the downstream fixed-size windowing splitter — as executable
Lean functions, and proves the specified properties about them.
-/

namespace MarkdownSplit

/-- A line of the document, as a list of characters (no newline inside). -/
abbrev Line := List Char

/-- A header rule: the marker literal (for markdown, a run of hash marks)
paired with the metadata key name it records, e.g. "Header 1". -/
abbrev Rule := String × String

/-- A line is fully blank when every character is whitespace (in particular
the empty line is blank). -/
def isBlankLine (l : Line) : Bool := l.all Char.isWhitespace

/-- Drop the trailing carriage returns of a line: with lines cut at a line
feed, this treats a carriage-return/line-feed pair like a bare line feed
(universal newline semantics). -/
def dropTrailingCR (l : Line) : Line := (l.reverse.dropWhile (· == '\r')).reverse

/-- Split a character list at every line feed.  Always returns at least one
(possibly empty) piece; a trailing line feed leaves an empty last piece. -/
def splitOnNL : List Char → List Line
  | [] => [[]]
  | c :: cs =>
    if c = '\n' then [] :: splitOnNL cs
    else
      match splitOnNL cs with
      | [] => [[c]]
      | l :: ls => (c :: l) :: ls

/-- Modelled from the spec: the line scan of `splitText` (step 1), which is
missing from the sources.  Lines are cut with universal newline semantics
and a trailing separator produces no extra empty line. -/
def toLines (s : String) : List Line :=
  let ls := splitOnNL s.data
  (if ls.getLast? = some [] then ls.dropLast else ls).map dropTrailingCR

/-- Re-join lines with the line separator, with no separator after the
final line. -/
def joinLines : List Line → List Char
  | [] => []
  | [l] => l
  | l :: ls => l ++ '\n' :: joinLines ls

/-- Drop leading whitespace of a line. -/
def stripLeadingWS (l : Line) : Line := l.dropWhile Char.isWhitespace

/-- Trim whitespace from both ends of a line. -/
def trimLine (l : Line) : Line :=
  ((l.dropWhile Char.isWhitespace).reverse.dropWhile Char.isWhitespace).reverse

/-- Modelled from the spec: a marker matches a (whitespace-stripped) line
when the line starts with the marker text followed immediately by at least
one whitespace character. -/
def matchesMarker (m : Line) (s : Line) : Bool :=
  (s.take m.length == m) &&
    (match s.drop m.length with
     | [] => false
     | c :: _ => c.isWhitespace)

/-- Modelled from the spec: among the configured rules, pick one whose
marker matches the stripped line, preferring the longest matching marker
(most specific rank wins); earlier rules win ties. -/
def bestRule (s : Line) : List Rule → Option Rule
  | [] => none
  | r :: rs =>
    match bestRule s rs with
    | none => if matchesMarker r.1.data s then some r else none
    | some b =>
      if matchesMarker r.1.data s = true ∧ b.1.length ≤ r.1.length then some r else some b

/-- Modelled from the spec: `classify` of the header-scope tracker, missing
from the sources.  Returns `none` for a content line, and for a header line
the derived rank (the marker's length), the configured metadata key, and
the title: the remainder of the line after the marker and its separating
whitespace, trimmed. -/
def classify (rules : List Rule) (l : Line) : Option (Nat × String × String) :=
  (bestRule (stripLeadingWS l) rules).map fun b =>
    (b.1.length, b.2, String.mk (trimLine ((stripLeadingWS l).drop b.1.length)))

/-- The scope stack: entries (rank, metadata key, title), kept in ascending
rank order. -/
abbrev Scope := List (Nat × String × String)

/-- Modelled from the spec: `applyHeader` of the header-scope tracker,
missing from the sources.  Sets the entry at the given rank and discards
every entry at a strictly greater rank; entries at lower ranks persist. -/
def applyHeader (scope : Scope) (rank : Nat) (key title : String) : Scope :=
  scope.filter (fun e => e.1 < rank) ++ [(rank, key, title)]

/-- The metadata snapshot of a scope stack: key-to-title pairs in ascending
rank order. -/
def metaOf (scope : Scope) : List (String × String) :=
  scope.map (fun e => (e.2.1, e.2.2))

/-- An emitted content block: the metadata snapshot taken when the block was
opened, and the accumulated content. -/
structure Block where
  metadata : List (String × String)
  content : String
deriving DecidableEq, Repr

/-- Drop the trailing fully-blank lines of a buffer. -/
def dropTrailingBlanks : List Line → List Line
  | [] => []
  | l :: ls =>
    match dropTrailingBlanks ls with
    | [] => if isBlankLine l then [] else [l]
    | l' :: ls' => l :: l' :: ls'

/-- Strip the leading and the trailing fully-blank lines of an accumulated
content buffer; interior blank lines are untouched. -/
def trimBlanks (buf : List Line) : List Line :=
  dropTrailingBlanks (buf.dropWhile isBlankLine)

/-- Seal an accumulated buffer under a scope: after trimming blank lines at
both ends, a non-empty buffer yields one block stamped with the scope's
metadata snapshot, an empty one yields nothing. -/
def emit (scope : Scope) (buf : List Line) : List Block :=
  let t := trimBlanks buf
  if t.isEmpty then [] else [⟨metaOf scope, String.mk (joinLines t)⟩]

/-- Modelled from the spec: the line-scan loop of `splitText`, missing from
the sources.  A header line unconditionally flushes the open block (stamped
with the metadata from before the header) and updates the scope; a content
line, blank ones included, is appended to the open buffer; the end of input
flushes the remaining buffer. -/
def splitLinesLoop (rules : List Rule) : Scope → List Line → List Line → List Block
  | scope, buf, [] => emit scope buf
  | scope, buf, l :: ls =>
    match classify rules l with
    | some (r, k, t) => emit scope buf ++ splitLinesLoop rules (applyHeader scope r k t) [] ls
    | none => splitLinesLoop rules scope (buf ++ [l]) ls

/-- Modelled from the spec: `splitText` of `MarkdownHeaderTextSplitter`,
missing from the sources — a single pass over the document's lines starting
from an empty scope and an empty buffer. -/
def splitText (rules : List Rule) (doc : String) : List Block :=
  splitLinesLoop rules [] [] (toLines doc)

/-- Fuel-driven windowing over a character list: while more than a window of
input remains, cut a window of the requested size and advance by the step;
the fuel (instantiated with the input's length, which the step, at least
one, never lets the recursion exceed) only bounds the iteration count. -/
def windowCharsFuel : Nat → Nat → Nat → List Char → List (List Char)
  | 0, _, _, cs => if cs.isEmpty then [] else [cs]
  | fuel + 1, w, step, cs =>
    if cs.length ≤ w then (if cs.isEmpty then [] else [cs])
    else cs.take w :: windowCharsFuel fuel w step (cs.drop step)

/-- Windows of the given size over a character list, consecutive windows
offset by the given step. -/
def windowChars (w step : Nat) (cs : List Char) : List (List Char) :=
  windowCharsFuel cs.length w step cs

/-- Modelled from the spec: the downstream windowing splitter, missing from
the sources and treated by the spec as a black box with contract
split(text, windowSize, overlap) — an ordered sequence of substrings
covering the input, each at most windowSize long, consecutive windows
overlapping by the given amount; the windowSize must be positive and the
overlap smaller than it (a configuration error otherwise, modelled as an
empty result). -/
def split (text : String) (windowSize overlap : Nat) : List String :=
  if 0 < windowSize ∧ overlap < windowSize then
    (windowChars windowSize (windowSize - overlap) text.data).map String.mk
  else []

/-- The notebook's per-block composition: every window produced from a
block's content, paired with that block's metadata copied verbatim. -/
def windowsWithMeta (b : Block) (windowSize overlap : Nat) :
    List (String × List (String × String)) :=
  (split b.content windowSize overlap).map (fun s => (s, b.metadata))

/-- The notebook's accumulated window list over all blocks, in block
order. -/
def allSplits (blocks : List Block) (windowSize overlap : Nat) : List String :=
  blocks.flatMap (fun b => split b.content windowSize overlap)

/-- The notebook's accumulated metadata list: one copy of the block's
metadata per window produced from that block, in block order. -/
def allMetadatas (blocks : List Block) (windowSize overlap : Nat) :
    List (List (String × String)) :=
  blocks.flatMap (fun b => (split b.content windowSize overlap).map (fun _ => b.metadata))

/-- The block each accumulated window was produced from, in block order:
one copy of the block per window produced from it. -/
def sourceBlocks (blocks : List Block) (windowSize overlap : Nat) : List Block :=
  blocks.flatMap (fun b => (split b.content windowSize overlap).map (fun _ => b))

/-- One maximal piece of the document's line sequence: either a single
header line, or a maximal run of consecutive content lines. -/
inductive Chunk where
  | header (l : Line)
  | contentRun (seg : List Line)
deriving DecidableEq, Repr

/-- The lines a chunk tiles. -/
def chunkLines : Chunk → List Line
  | .header l => [l]
  | .contentRun seg => seg

/-- Partition a line sequence into header lines and maximal runs of
consecutive content lines, in order. -/
def chunksOf (rules : List Rule) : List Line → List Chunk
  | [] => []
  | l :: ls =>
    if (classify rules l).isSome then .header l :: chunksOf rules ls
    else
      match chunksOf rules ls with
      | .contentRun seg :: rest => .contentRun (l :: seg) :: rest
      | cs => .contentRun [l] :: cs

/-- The content a sealed buffer contributes: nothing when blank-trimming
empties it, otherwise the trimmed lines re-joined. -/
def emitContent (buf : List Line) : List String :=
  if (trimBlanks buf).isEmpty then [] else [String.mk (joinLines (trimBlanks buf))]

/-- The block contents the scan produces from a chunk sequence, given the
buffer of content lines already pending: a header chunk seals the pending
buffer, a content run is sealed together with the pending buffer, and the
end of input seals what remains. -/
def runContents : List Line → List Chunk → List String
  | pending, [] => emitContent pending
  | pending, .header _ :: cs => emitContent pending ++ runContents [] cs
  | pending, .contentRun seg :: cs => emitContent (pending ++ seg) ++ runContents [] cs

/-- The blocks' contents one chunk contributes on its own: a header line
contributes none (it is stripped), a content run contributes its sealed
content — note the metadata plays no part, which is what makes the flush
unconditional. -/
def emitChunk : Chunk → List String
  | .header _ => []
  | .contentRun seg => emitContent seg

/-- No two adjacent content runs: between any two runs a header line
stands. -/
def noAdjacentRuns : List Chunk → Bool
  | .contentRun _ :: .contentRun _ :: _ => false
  | _ :: cs => noAdjacentRuns cs
  | [] => true

/-- The rule table of the notebook's first splitting cell. -/
def nbRules : List Rule := [("#", "Header 1"), ("##", "Header 2"), ("###", "Header 3")]

/-- The markdown document of the notebook's first splitting cell. -/
def nbDoc : String :=
  "# Foo\n\n    ## Bar\n\nHi this is Jim\n\nHi this is Joe\n\n ### Boo \n\n Hi this is Lance \n\n ## Baz\n\n Hi this is Molly"

/-- The rule table of the specification's Scenario A. -/
def scenarioARules : List Rule := [("#", "Header 1"), ("##", "Header 2")]

/-- The input document of the specification's Scenario A. -/
def scenarioADoc : String :=
  "# Foo\n\n## Bar\n\nHi this is Jim  \nHi this is Joe\n\n## Baz\n\n Hi this is Molly"

/-- The opening of the History section's text in the notebook's windowing
cell. -/
def historyText : String :=
  "Markdown[9] is a lightweight markup language for creating formatted text using a plain-text editor."

/-! ## Blank-line trimming -/

theorem dropWhile_head_not {α} (p : α → Bool) :
    ∀ (xs : List α) (a : α) (t : List α), xs.dropWhile p = a :: t → p a = false := by
  intro xs
  induction xs with
  | nil => intro a t h; cases h
  | cons x xs ih =>
    intro a t h
    by_cases hp : p x = true
    · rw [List.dropWhile_cons_of_pos hp] at h
      exact ih a t h
    · rw [List.dropWhile_cons_of_neg hp] at h
      cases h
      exact Bool.eq_false_iff.2 hp

theorem mem_dropTrailingBlanks {l : Line} :
    ∀ {buf : List Line}, l ∈ dropTrailingBlanks buf → l ∈ buf := by
  intro buf
  induction buf with
  | nil => intro h; cases h
  | cons x xs ih =>
    intro h
    rcases hd : dropTrailingBlanks xs with _ | ⟨y, ys⟩ <;>
      simp only [dropTrailingBlanks, hd] at h
    · by_cases hb : isBlankLine x = true
      · simp [hb] at h
      · simp [hb] at h
        simp [h]
    · rcases List.mem_cons.1 h with h1 | h2
      · simp [h1]
      · exact List.mem_cons_of_mem x (ih (hd ▸ h2))

theorem mem_trimBlanks {l : Line} {buf : List Line} (h : l ∈ trimBlanks buf) : l ∈ buf :=
  List.Sublist.mem (mem_dropTrailingBlanks h) (List.dropWhile_sublist isBlankLine)

theorem dropTrailingBlanks_eq_nil :
    ∀ {buf : List Line}, dropTrailingBlanks buf = [] → ∀ l ∈ buf, isBlankLine l = true := by
  intro buf
  induction buf with
  | nil => intro _ l hl; cases hl
  | cons x xs ih =>
    intro h l hl
    rcases hd : dropTrailingBlanks xs with _ | ⟨y, ys⟩ <;>
      simp only [dropTrailingBlanks, hd] at h
    · by_cases hb : isBlankLine x = true
      · rcases List.mem_cons.1 hl with h1 | h2
        · exact h1 ▸ hb
        · exact ih hd l h2
      · simp [hb] at h
    · cases h

theorem dropTrailingBlanks_of_all_blank :
    ∀ {buf : List Line}, (∀ l ∈ buf, isBlankLine l = true) → dropTrailingBlanks buf = [] := by
  intro buf
  induction buf with
  | nil => intro _; rfl
  | cons x xs ih =>
    intro h
    have hxs := ih (fun l hl => h l (List.mem_cons_of_mem x hl))
    simp only [dropTrailingBlanks, hxs, h x (List.mem_cons_self x xs)]
    rfl

theorem trimBlanks_eq_nil {buf : List Line} (h : trimBlanks buf = []) :
    ∀ l ∈ buf, isBlankLine l = true := by
  intro l hl
  have hsplit := List.takeWhile_append_dropWhile (p := isBlankLine) (l := buf)
  rw [← hsplit] at hl
  rcases List.mem_append.1 hl with h1 | h2
  · exact List.mem_takeWhile_imp h1
  · exact dropTrailingBlanks_eq_nil h l h2

theorem trimBlanks_of_all_blank {buf : List Line} (h : ∀ l ∈ buf, isBlankLine l = true) :
    trimBlanks buf = [] :=
  dropTrailingBlanks_of_all_blank
    (fun l hl => h l (List.Sublist.mem hl (List.dropWhile_sublist isBlankLine)))

theorem dropTrailingBlanks_head {y : Line} {ys : List Line} :
    ∀ {buf : List Line}, dropTrailingBlanks buf = y :: ys → buf.head? = some y := by
  intro buf
  induction buf with
  | nil => intro h; cases h
  | cons x xs _ =>
    intro h
    rcases hd : dropTrailingBlanks xs with _ | ⟨z, zs⟩ <;>
      simp only [dropTrailingBlanks, hd] at h
    · by_cases hb : isBlankLine x = true
      · simp [hb] at h
      · simp [hb] at h
        simp [h.1]
    · cases h
      rfl

theorem dropTrailingBlanks_getLast {a : Line} :
    ∀ {buf : List Line}, (dropTrailingBlanks buf).getLast? = some a →
      isBlankLine a = false := by
  intro buf
  induction buf with
  | nil => intro h; cases h
  | cons x xs ih =>
    intro h
    rcases hd : dropTrailingBlanks xs with _ | ⟨z, zs⟩ <;>
      simp only [dropTrailingBlanks, hd] at h
    · by_cases hb : isBlankLine x = true
      · simp [hb] at h
      · simp [hb] at h
        rw [← h]
        exact Bool.eq_false_iff.2 hb
    · rw [List.getLast?_cons_cons] at h
      exact ih (hd ▸ h)

theorem trimBlanks_head {buf : List Line} {y : Line} {ys : List Line}
    (h : trimBlanks buf = y :: ys) : isBlankLine y = false := by
  have h1 := dropTrailingBlanks_head h
  rcases hd : buf.dropWhile isBlankLine with _ | ⟨z, zs⟩
  · rw [trimBlanks, hd] at h; cases h
  · rw [hd] at h1
    cases h1
    exact dropWhile_head_not isBlankLine buf y zs hd

theorem trimBlanks_getLast {buf : List Line} {a : Line}
    (h : (trimBlanks buf).getLast? = some a) : isBlankLine a = false :=
  dropTrailingBlanks_getLast h

theorem dropTrailingBlanks_idem :
    ∀ (buf : List Line), dropTrailingBlanks (dropTrailingBlanks buf) = dropTrailingBlanks buf := by
  intro buf
  induction buf with
  | nil => rfl
  | cons x xs ih =>
    rcases hd : dropTrailingBlanks xs with _ | ⟨z, zs⟩
    · have hstep : dropTrailingBlanks (x :: xs)
          = if isBlankLine x = true then [] else [x] := by
        simp only [dropTrailingBlanks, hd]
      rw [hstep]
      by_cases hb : isBlankLine x = true
      · simp [hb]
        rfl
      · simp only [hb, if_false]
        simp [dropTrailingBlanks, hb]
    · have hstep : dropTrailingBlanks (x :: xs) = x :: z :: zs := by
        simp only [dropTrailingBlanks, hd]
      rw [hd] at ih
      have hcons : dropTrailingBlanks (x :: z :: zs)
          = match dropTrailingBlanks (z :: zs) with
            | [] => if isBlankLine x then [] else [x]
            | l' :: ls' => x :: l' :: ls' := rfl
      rw [hstep, hcons, ih]

theorem dropWhile_eq_self_of_head {α} {p : α → Bool} :
    ∀ {xs : List α}, (∀ a t, xs = a :: t → p a = false) → xs.dropWhile p = xs := by
  intro xs h
  cases xs with
  | nil => rfl
  | cons a t => exact List.dropWhile_cons_of_neg (Bool.eq_false_iff.1 (h a t rfl))

theorem trimBlanks_idem (buf : List Line) : trimBlanks (trimBlanks buf) = trimBlanks buf := by
  have h1 : (trimBlanks buf).dropWhile isBlankLine = trimBlanks buf :=
    dropWhile_eq_self_of_head (fun a t ha => trimBlanks_head ha)
  calc trimBlanks (trimBlanks buf)
      = dropTrailingBlanks ((trimBlanks buf).dropWhile isBlankLine) := rfl
    _ = dropTrailingBlanks (trimBlanks buf) := by rw [h1]
    _ = dropTrailingBlanks (dropTrailingBlanks (buf.dropWhile isBlankLine)) := rfl
    _ = dropTrailingBlanks (buf.dropWhile isBlankLine) := dropTrailingBlanks_idem _
    _ = trimBlanks buf := rfl

/-! ## The scan loop -/

theorem emit_map_content (scope : Scope) (buf : List Line) :
    (emit scope buf).map Block.content = emitContent buf := by
  rw [emit, emitContent]
  by_cases h : (trimBlanks buf).isEmpty = true <;> simp [h]

theorem mem_emit {b : Block} {scope : Scope} {buf : List Line} (h : b ∈ emit scope buf) :
    trimBlanks buf ≠ [] ∧ b = ⟨metaOf scope, String.mk (joinLines (trimBlanks buf))⟩ := by
  rw [emit] at h
  by_cases he : (trimBlanks buf).isEmpty = true
  · simp [he] at h
  · simp [he] at h
    exact ⟨fun hn => he (by simp [hn]), h⟩

theorem emit_length_le (scope : Scope) (buf : List Line) : (emit scope buf).length ≤ 1 := by
  rw [emit]
  by_cases h : (trimBlanks buf).isEmpty = true <;> simp [h]

theorem splitLinesLoop_no_header (rules : List Rule) :
    ∀ (ls : List Line) (scope : Scope) (buf : List Line),
      (∀ l ∈ ls, classify rules l = none) →
      splitLinesLoop rules scope buf ls = emit scope (buf ++ ls) := by
  intro ls
  induction ls with
  | nil => intro scope buf _; rw [splitLinesLoop, List.append_nil]
  | cons l ls ih =>
    intro scope buf h
    simp only [splitLinesLoop, h l (List.mem_cons_self l ls)]
    rw [ih scope (buf ++ [l]) (fun x hx => h x (List.mem_cons_of_mem l hx))]
    congr 1
    simp

theorem splitLinesLoop_length_le (rules : List Rule) :
    ∀ (ls : List Line) (scope : Scope) (buf : List Line),
      (splitLinesLoop rules scope buf ls).length
        ≤ ls.countP (fun l => (classify rules l).isSome) + 1 := by
  intro ls
  induction ls with
  | nil =>
    intro scope buf
    simpa using Nat.le_trans (emit_length_le scope buf) (by omega)
  | cons l ls ih =>
    intro scope buf
    rcases hc : classify rules l with _ | ⟨r, k, t⟩
    · simp only [splitLinesLoop, hc]
      have hcount : (l :: ls).countP (fun x => (classify rules x).isSome)
          = ls.countP (fun x => (classify rules x).isSome) := by
        simp [List.countP_cons, hc]
      rw [hcount]
      exact ih scope (buf ++ [l])
    · simp only [splitLinesLoop, hc]
      rw [List.length_append]
      have h1 := emit_length_le scope buf
      have h2 := ih (applyHeader scope r k t) []
      have hcount : (l :: ls).countP (fun x => (classify rules x).isSome)
          = ls.countP (fun x => (classify rules x).isSome) + 1 := by
        simp [List.countP_cons, hc]
      omega

theorem mem_splitLinesLoop {rules : List Rule} {b : Block} :
    ∀ (ls : List Line) (scope : Scope) (buf : List Line), b ∈ splitLinesLoop rules scope buf ls →
      ∃ buf', trimBlanks buf' ≠ [] ∧ b.content = String.mk (joinLines (trimBlanks buf')) ∧
        ∀ l ∈ buf', l ∈ buf ∨ l ∈ ls := by
  intro ls
  induction ls with
  | nil =>
    intro scope buf h
    rw [splitLinesLoop] at h
    obtain ⟨hne, hb⟩ := mem_emit h
    exact ⟨buf, hne, by rw [hb], fun l hl => Or.inl hl⟩
  | cons l ls ih =>
    intro scope buf h
    rcases hc : classify rules l with _ | ⟨r, k, t⟩
    · simp only [splitLinesLoop, hc] at h
      obtain ⟨buf', hne, hcontent, hmem⟩ := ih scope (buf ++ [l]) h
      refine ⟨buf', hne, hcontent, fun x hx => ?_⟩
      rcases hmem x hx with h1 | h2
      · rcases List.mem_append.1 h1 with h3 | h4
        · exact Or.inl h3
        · exact Or.inr (List.mem_cons.2 (Or.inl (List.mem_singleton.1 h4)))
      · exact Or.inr (List.mem_cons_of_mem l h2)
    · simp only [splitLinesLoop, hc] at h
      rcases List.mem_append.1 h with h1 | h2
      · obtain ⟨hne, hb⟩ := mem_emit h1
        exact ⟨buf, hne, by rw [hb], fun x hx => Or.inl hx⟩
      · obtain ⟨buf', hne, hcontent, hmem⟩ := ih (applyHeader scope r k t) [] h2
        refine ⟨buf', hne, hcontent, fun x hx => ?_⟩
        rcases hmem x hx with h1 | h3
        · cases h1
        · exact Or.inr (List.mem_cons_of_mem l h3)

/-! ## Blank lines are never headers -/

theorem stripLeadingWS_eq_nil {l : Line} (h : isBlankLine l = true) : stripLeadingWS l = [] := by
  rw [stripLeadingWS, List.dropWhile_eq_nil_iff]
  intro c hc
  exact (List.all_eq_true.1 h) c hc

theorem matchesMarker_nil (m : Line) : matchesMarker m [] = false := by
  simp [matchesMarker]

theorem bestRule_nil_line : ∀ (rules : List Rule), bestRule [] rules = none := by
  intro rules
  induction rules with
  | nil => rfl
  | cons r rs ih => simp [bestRule, ih, matchesMarker_nil]

theorem classify_of_blank {rules : List Rule} {l : Line} (h : isBlankLine l = true) :
    classify rules l = none := by
  rw [classify, stripLeadingWS_eq_nil h, bestRule_nil_line]
  rfl

/-- C6: with any well-formed configuration, `splitText` is total, and at the
boundaries: the empty document yields no blocks; a document all of whose
lines are fully blank yields no blocks; a document none of whose lines is a
header line, and with at least one non-blank line, yields exactly one block
whose metadata is the empty mapping and whose content is all the content,
trimmed. -/
theorem c6_boundary_behavior (rules : List Rule) :
    splitText rules "" = []
    ∧ (∀ doc : String, (∀ l ∈ toLines doc, isBlankLine l = true) → splitText rules doc = [])
    ∧ (∀ doc : String, (∀ l ∈ toLines doc, classify rules l = none) →
        (∃ l ∈ toLines doc, isBlankLine l = false) →
        splitText rules doc = [⟨[], String.mk (joinLines (trimBlanks (toLines doc)))⟩]) := by
  refine ⟨rfl, ?_, ?_⟩
  · intro doc hblank
    rw [splitText,
      splitLinesLoop_no_header rules _ _ _ (fun l hl => classify_of_blank (hblank l hl)),
      List.nil_append, emit]
    rw [trimBlanks_of_all_blank hblank]
    rfl
  · intro doc hnone hnb
    rw [splitText, splitLinesLoop_no_header rules _ _ _ hnone, List.nil_append, emit]
    have hne : trimBlanks (toLines doc) ≠ [] := by
      intro h
      obtain ⟨l, hl, hnbl⟩ := hnb
      rw [trimBlanks_eq_nil h l hl] at hnbl
      cases hnbl
    have hfalse : (trimBlanks (toLines doc)).isEmpty = false := by
      rcases htl : trimBlanks (toLines doc) with _ | _
      · exact absurd htl hne
      · rfl
    simp only [hfalse, if_false]
    rfl

/-- C6 witness: a concrete header-free document with content yields exactly
one block with empty metadata holding all the content. -/
theorem c6_boundary_behavior_witness :
    splitText [("#", "Header 1")] "plain\n\ntext" = [⟨[], "plain\n\ntext"⟩] :=
  ((c6_boundary_behavior [("#", "Header 1")]).2.2 "plain\n\ntext" (by decide)
    (by decide)).trans (by decide)

/-! ## Chunks: header lines and maximal content runs -/

theorem chunksOf_flatMap (rules : List Rule) :
    ∀ ls : List Line, (chunksOf rules ls).flatMap chunkLines = ls := by
  intro ls
  induction ls with
  | nil => rfl
  | cons l ls ih =>
    by_cases hc : (classify rules l).isSome = true
    · have h2 : chunksOf rules (l :: ls) = Chunk.header l :: chunksOf rules ls := by
        simp [chunksOf, hc]
      rw [h2, List.flatMap_cons, ih]
      rfl
    · rcases hch : chunksOf rules ls with _ | ⟨c, cs⟩
      · have h2 : chunksOf rules (l :: ls) = [Chunk.contentRun [l]] := by
          simp [chunksOf, hc, hch]
        rw [hch] at ih
        rw [h2]
        simp only [List.flatMap_cons, chunkLines] at ih ⊢
        simp at ih
        simp [ih]
      · cases c with
        | header hl =>
          have h2 : chunksOf rules (l :: ls)
              = Chunk.contentRun [l] :: Chunk.header hl :: cs := by
            simp [chunksOf, hc, hch]
          rw [hch] at ih
          rw [h2, List.flatMap_cons, ← ih]
          rfl
        | contentRun seg =>
          have h2 : chunksOf rules (l :: ls) = Chunk.contentRun (l :: seg) :: cs := by
            simp [chunksOf, hc, hch]
          rw [hch] at ih
          rw [h2, List.flatMap_cons, chunkLines]
          rw [List.flatMap_cons, chunkLines] at ih
          rw [← ih]
          rfl

theorem chunksOf_noAdjacentRuns (rules : List Rule) :
    ∀ ls : List Line, noAdjacentRuns (chunksOf rules ls) = true := by
  intro ls
  induction ls with
  | nil => rfl
  | cons l ls ih =>
    by_cases hc : (classify rules l).isSome = true
    · have h2 : chunksOf rules (l :: ls) = Chunk.header l :: chunksOf rules ls := by
        simp [chunksOf, hc]
      rw [h2]
      exact ih
    · rcases hch : chunksOf rules ls with _ | ⟨c, cs⟩
      · have h2 : chunksOf rules (l :: ls) = [Chunk.contentRun [l]] := by
          simp [chunksOf, hc, hch]
        rw [h2]
        rfl
      · cases c with
        | header hl =>
          have h2 : chunksOf rules (l :: ls)
              = Chunk.contentRun [l] :: Chunk.header hl :: cs := by
            simp [chunksOf, hc, hch]
          rw [h2]
          rw [hch] at ih
          exact ih
        | contentRun seg =>
          have h2 : chunksOf rules (l :: ls) = Chunk.contentRun (l :: seg) :: cs := by
            simp [chunksOf, hc, hch]
          rw [h2]
          rw [hch] at ih
          cases cs with
          | nil => rfl
          | cons c' cs' =>
            cases c' with
            | header _ => exact ih
            | contentRun _ => exact ih

theorem chunksOf_classification (rules : List Rule) :
    ∀ ls : List Line,
      (∀ l, Chunk.header l ∈ chunksOf rules ls → (classify rules l).isSome = true)
      ∧ (∀ seg, Chunk.contentRun seg ∈ chunksOf rules ls → ∀ l ∈ seg, classify rules l = none) := by
  intro ls
  induction ls with
  | nil =>
    exact ⟨fun l h => absurd h (List.not_mem_nil _),
      fun seg h => absurd h (List.not_mem_nil _)⟩
  | cons l ls ih =>
    obtain ⟨ihh, ihr⟩ := ih
    rcases hc : classify rules l with _ | v
    · have hcs : ¬((classify rules l).isSome = true) := by rw [hc]; simp
      have hnone : classify rules l = none := hc
      rcases hch : chunksOf rules ls with _ | ⟨c, cs⟩
      · have h2 : chunksOf rules (l :: ls) = [Chunk.contentRun [l]] := by
          simp [chunksOf, hcs, hch]
        rw [h2]
        constructor
        · intro x hx
          rw [List.mem_singleton] at hx
          exact Chunk.noConfusion hx
        · intro seg hseg x hx
          rw [List.mem_singleton] at hseg
          injection hseg with hseg
          rw [hseg, List.mem_singleton] at hx
          rw [hx]
          exact hnone
      · cases c with
        | header hl =>
          have h2 : chunksOf rules (l :: ls)
              = Chunk.contentRun [l] :: Chunk.header hl :: cs := by
            simp [chunksOf, hcs, hch]
          rw [h2]
          rw [hch] at ihh ihr
          constructor
          · intro x hx
            rcases List.mem_cons.1 hx with h1 | h1
            · exact Chunk.noConfusion h1
            · exact ihh x h1
          · intro seg hseg x hx
            rcases List.mem_cons.1 hseg with h1 | h1
            · injection h1 with h1
              rw [h1, List.mem_singleton] at hx
              rw [hx]
              exact hnone
            · exact ihr seg h1 x hx
        | contentRun seg0 =>
          have h2 : chunksOf rules (l :: ls) = Chunk.contentRun (l :: seg0) :: cs := by
            simp [chunksOf, hcs, hch]
          rw [h2]
          rw [hch] at ihh ihr
          constructor
          · intro x hx
            rcases List.mem_cons.1 hx with h1 | h1
            · exact Chunk.noConfusion h1
            · exact ihh x (List.mem_cons_of_mem _ h1)
          · intro seg hseg x hx
            rcases List.mem_cons.1 hseg with h1 | h1
            · injection h1 with h1
              rw [h1] at hx
              rcases List.mem_cons.1 hx with h3 | h3
              · rw [h3]
                exact hnone
              · exact ihr seg0 (List.mem_cons_self _ _) x h3
            · exact ihr seg (List.mem_cons_of_mem _ h1) x hx
    · have hcs : (classify rules l).isSome = true := by rw [hc]; rfl
      have h2 : chunksOf rules (l :: ls) = Chunk.header l :: chunksOf rules ls := by
        simp [chunksOf, hcs]
      rw [h2]
      constructor
      · intro x hx
        rcases List.mem_cons.1 hx with h1 | h1
        · injection h1 with h1
          rw [h1]
          exact hcs
        · exact ihh x h1
      · intro seg hseg x hx
        rcases List.mem_cons.1 hseg with h1 | h1
        · exact Chunk.noConfusion h1
        · exact ihr seg h1 x hx

theorem splitLinesLoop_map_content (rules : List Rule) :
    ∀ (ls : List Line) (scope : Scope) (buf : List Line),
      (splitLinesLoop rules scope buf ls).map Block.content
        = runContents buf (chunksOf rules ls) := by
  intro ls
  induction ls with
  | nil =>
    intro scope buf
    rw [splitLinesLoop, chunksOf, runContents]
    exact emit_map_content scope buf
  | cons l ls ih =>
    intro scope buf
    rcases hc : classify rules l with _ | ⟨r, k, t⟩
    · have hcs : ¬((classify rules l).isSome = true) := by rw [hc]; simp
      simp only [splitLinesLoop, hc]
      rw [ih scope (buf ++ [l])]
      rcases hch : chunksOf rules ls with _ | ⟨c, cs⟩
      · have h2 : chunksOf rules (l :: ls) = [Chunk.contentRun [l]] := by
          simp [chunksOf, hcs, hch]
        rw [h2]
        simp [runContents, show emitContent [] = [] from rfl]
      · cases c with
        | header hl =>
          have h2 : chunksOf rules (l :: ls)
              = Chunk.contentRun [l] :: Chunk.header hl :: cs := by
            simp [chunksOf, hcs, hch]
          rw [h2]
          simp [runContents, show emitContent [] = [] from rfl]
        | contentRun seg =>
          have h2 : chunksOf rules (l :: ls) = Chunk.contentRun (l :: seg) :: cs := by
            simp [chunksOf, hcs, hch]
          rw [h2]
          simp only [runContents]
          simp [List.append_assoc]
    · have hcs : (classify rules l).isSome = true := by rw [hc]; rfl
      have h2 : chunksOf rules (l :: ls) = Chunk.header l :: chunksOf rules ls := by
        simp [chunksOf, hcs]
      simp only [splitLinesLoop, hc]
      rw [h2, runContents, List.map_append, ih, emit_map_content]

theorem mem_runContents {x : String} :
    ∀ {cs : List Chunk}, x ∈ runContents [] cs →
      ∃ seg, Chunk.contentRun seg ∈ cs ∧ trimBlanks seg ≠ [] ∧
        x = String.mk (joinLines (trimBlanks seg)) := by
  intro cs
  induction cs with
  | nil =>
    intro h
    rw [runContents] at h
    cases h
  | cons c cs ih =>
    cases c with
    | header hl =>
      intro h
      rw [runContents, show emitContent [] = [] from rfl, List.nil_append] at h
      obtain ⟨seg, hmem, hne, hx⟩ := ih h
      exact ⟨seg, List.mem_cons_of_mem _ hmem, hne, hx⟩
    | contentRun seg =>
      intro h
      rw [runContents, List.nil_append] at h
      rcases List.mem_append.1 h with h1 | h2
      · rw [emitContent] at h1
        by_cases he : (trimBlanks seg).isEmpty = true
        · simp [he] at h1
        · simp [he] at h1
          exact ⟨seg, List.mem_cons_self _ _, fun hn => he (by simp [hn]), h1⟩
      · obtain ⟨seg', hmem, hne, hx⟩ := ih h2
        exact ⟨seg', List.mem_cons_of_mem _ hmem, hne, hx⟩

theorem runContents_eq_flatMap : ∀ cs : List Chunk, runContents [] cs = cs.flatMap emitChunk := by
  intro cs
  induction cs with
  | nil => rfl
  | cons c cs ih =>
    cases c with
    | header hl =>
      rw [runContents, show emitContent [] = [] from rfl, List.nil_append, ih,
        List.flatMap_cons]
      rfl
    | contentRun seg =>
      rw [runContents, List.nil_append, ih, List.flatMap_cons]
      rfl

theorem emitChunk_length_le (c : Chunk) : (emitChunk c).length ≤ 1 := by
  cases c with
  | header hl => simp [emitChunk]
  | contentRun seg =>
    rw [emitChunk, emitContent]
    by_cases he : (trimBlanks seg).isEmpty = true <;> simp [he]

theorem emitChunk_eq_cons {c : Chunk} {ys1 ys2 : List String} {x : String}
    (h : emitChunk c = ys1 ++ x :: ys2) :
    ∃ seg, c = Chunk.contentRun seg ∧ ys1 = [] ∧ ys2 = [] ∧
      trimBlanks seg ≠ [] ∧ x = String.mk (joinLines (trimBlanks seg)) := by
  cases c with
  | header hl =>
    rw [emitChunk] at h
    cases ys1 <;> simp at h
  | contentRun seg =>
    rw [emitChunk, emitContent] at h
    by_cases he : (trimBlanks seg).isEmpty = true
    · rw [if_pos he] at h
      cases ys1 <;> simp at h
    · rw [if_neg he] at h
      have hne : trimBlanks seg ≠ [] := fun hn => he (by simp [hn])
      cases ys1 with
      | nil =>
        injection h with h1 h2
        cases ys2 with
        | nil => exact ⟨seg, rfl, rfl, rfl, hne, h1.symm⟩
        | cons z zs => cases h2
      | cons y ys1' =>
        injection h with h1 h2
        exact absurd h2.symm (List.append_ne_nil_of_right_ne_nil _ (List.cons_ne_nil _ _))

theorem flatMap_eq_append_cons {α β : Type} (g : α → List β) :
    ∀ (cs : List α) (xs1 : List β) (x : β) (xs2 : List β),
      cs.flatMap g = xs1 ++ x :: xs2 →
      ∃ cs1 c cs2 ys1 ys2, cs = cs1 ++ c :: cs2 ∧ g c = ys1 ++ x :: ys2 ∧
        xs1 = cs1.flatMap g ++ ys1 ∧ xs2 = ys2 ++ cs2.flatMap g := by
  intro cs
  induction cs with
  | nil =>
    intro xs1 x xs2 h
    rw [List.flatMap_nil] at h
    cases xs1 <;> simp at h
  | cons a cs ih =>
    intro xs1 x xs2 h
    rw [List.flatMap_cons] at h
    rcases List.append_eq_append_iff.1 h with ⟨a', ha1, ha2⟩ | ⟨c', hc1, hc2⟩
    · obtain ⟨cs1, c, cs2, ys1, ys2, hcs, hgc, hys1, hys2⟩ := ih a' x xs2 ha2
      exact ⟨a :: cs1, c, cs2, ys1, ys2, by rw [hcs, List.cons_append], hgc,
        by rw [ha1, hys1, List.flatMap_cons, List.append_assoc], hys2⟩
    · rcases hcc : c' with _ | ⟨y, c''⟩
      · rw [hcc, List.append_nil] at hc1
        rw [hcc, List.nil_append] at hc2
        obtain ⟨cs1, c, cs2, ys1, ys2, hcs, hgc, hys1, hys2⟩ :=
          ih [] x xs2 (by rw [← hc2, List.nil_append])
        obtain ⟨hfm, hys1nil⟩ := List.append_eq_nil.1 hys1.symm
        refine ⟨a :: cs1, c, cs2, [], ys2, by rw [hcs, List.cons_append], ?_, ?_, hys2⟩
        · rw [hgc, hys1nil, List.nil_append]
        · rw [List.flatMap_cons, hfm, List.append_nil, List.append_nil, hc1]
      · rw [hcc] at hc1 hc2
        rw [List.cons_append] at hc2
        injection hc2 with hy hrest
        refine ⟨[], a, cs, xs1, c'', by rw [List.nil_append], ?_, by simp, hrest⟩
        rw [hc1, hy]

theorem flatMap_length_countP {α β : Type} (g : α → List β) (hg : ∀ a, (g a).length ≤ 1) :
    ∀ cs : List α, (cs.flatMap g).length = cs.countP (fun c => !(g c).isEmpty) := by
  intro cs
  induction cs with
  | nil => rfl
  | cons a cs ih =>
    rw [List.flatMap_cons, List.length_append, ih, List.countP_cons]
    rcases hga : g a with _ | ⟨y, ys⟩
    · simp [hga]
    · have hlen := hg a
      rw [hga] at hlen
      have hys : ys = [] := by
        rw [List.length_cons] at hlen
        exact List.length_eq_zero.1 (by omega)
      subst hys
      simp [hga]
      omega

theorem noAdjacentRuns_append_right :
    ∀ (xs ys : List Chunk), noAdjacentRuns (xs ++ ys) = true → noAdjacentRuns ys = true := by
  intro xs
  induction xs with
  | nil => intro ys h; exact h
  | cons x xs ih =>
    intro ys h
    apply ih
    rcases x with hl | seg
    · exact h
    · rcases hxy : xs ++ ys with _ | ⟨c, t⟩
      · rfl
      · have h2 : noAdjacentRuns (Chunk.contentRun seg :: c :: t) = true := by
          rw [← hxy]
          exact h
        rcases c with hl2 | seg2
        · exact h2
        · exact Bool.noConfusion h2

/-- For every document, any two consecutive emitted blocks arise from two
content-line runs with a header line standing strictly between them in the
document's line sequence. -/
theorem header_between_consecutive (rules : List Rule) (doc : String)
    (pre : List Block) (b1 b2 : Block) (post : List Block)
    (h : splitText rules doc = pre ++ b1 :: b2 :: post) :
    ∃ (l1 seg1 : List Line) (hline : Line) (l2 seg2 l3 : List Line),
      toLines doc = l1 ++ seg1 ++ hline :: (l2 ++ seg2 ++ l3) ∧
      (classify rules hline).isSome = true ∧
      trimBlanks seg1 ≠ [] ∧ trimBlanks seg2 ≠ [] ∧
      b1.content = String.mk (joinLines (trimBlanks seg1)) ∧
      b2.content = String.mk (joinLines (trimBlanks seg2)) := by
  have hmap0 := splitLinesLoop_map_content rules (toLines doc) [] []
  rw [show splitLinesLoop rules [] [] (toLines doc) = splitText rules doc from rfl, h,
    runContents_eq_flatMap, List.map_append, List.map_cons, List.map_cons] at hmap0
  obtain ⟨cs1, c, cs2, ys1, ys2, hchunks, hc, hxs1, hxs2⟩ :=
    flatMap_eq_append_cons emitChunk _ _ _ _ hmap0.symm
  obtain ⟨seg1, hceq, hys1, hys2, hne1, hx1⟩ := emitChunk_eq_cons hc
  subst hceq
  rw [hys2, List.nil_append] at hxs2
  obtain ⟨cs2a, c', cs2b, ys1', ys2', hcs2, hc', hxs1', hxs2'⟩ :=
    flatMap_eq_append_cons emitChunk cs2 [] b2.content (post.map Block.content)
      (by rw [List.nil_append, ← hxs2])
  obtain ⟨seg2, hceq', hys1'', hys2'', hne2, hx2⟩ := emitChunk_eq_cons hc'
  subst hceq'
  have hnadj := chunksOf_noAdjacentRuns rules (toLines doc)
  rw [hchunks] at hnadj
  have hnadj2 : noAdjacentRuns (Chunk.contentRun seg1 :: cs2) = true :=
    noAdjacentRuns_append_right cs1 _ hnadj
  rcases hcs2a : cs2a with _ | ⟨chead, cs2a'⟩
  · rw [hcs2a, List.nil_append] at hcs2
    rw [hcs2] at hnadj2
    exact Bool.noConfusion hnadj2
  · rcases chead with hl | segX
    · rw [hcs2a] at hcs2
      refine ⟨cs1.flatMap chunkLines, seg1, hl, cs2a'.flatMap chunkLines, seg2,
        cs2b.flatMap chunkLines, ?_, ?_, hne1, hne2, hx1, hx2⟩
      · have htile := chunksOf_flatMap rules (toLines doc)
        rw [hchunks, hcs2] at htile
        rw [← htile]
        simp [List.flatMap_append, List.flatMap_cons, chunkLines, List.append_assoc]
      · apply (chunksOf_classification rules (toLines doc)).1 hl
        rw [hchunks, hcs2]
        apply List.mem_append_right
        exact List.mem_cons_of_mem _ (List.mem_cons_self _ _)
    · rw [hcs2a] at hcs2
      rw [hcs2] at hnadj2
      exact Bool.noConfusion hnadj2

/-- C3: every header line is an unconditional flush point — for every
document and rule set the emitted contents are exactly the per-run
emissions of the document's content runs, a computation in which the
metadata takes no part, so the block count equals the number of
blank-trim-surviving content runs (never fewer through merging); any two
consecutive emitted blocks come from two runs with a header line standing
between them in the source lines; and a document restating an identical
header concretely yields two distinct blocks with byte-identical
metadata. -/
theorem c3_flush_on_header :
    (∀ (rules : List Rule) (doc : String),
        (splitText rules doc).map Block.content
          = (chunksOf rules (toLines doc)).flatMap emitChunk
        ∧ (splitText rules doc).length
          = (chunksOf rules (toLines doc)).countP (fun c => !(emitChunk c).isEmpty))
    ∧ (∀ (rules : List Rule) (doc : String) (pre : List Block) (b1 b2 : Block)
          (post : List Block), splitText rules doc = pre ++ b1 :: b2 :: post →
        ∃ (l1 seg1 : List Line) (hline : Line) (l2 seg2 l3 : List Line),
          toLines doc = l1 ++ seg1 ++ hline :: (l2 ++ seg2 ++ l3) ∧
          (classify rules hline).isSome = true ∧
          trimBlanks seg1 ≠ [] ∧ trimBlanks seg2 ≠ [] ∧
          b1.content = String.mk (joinLines (trimBlanks seg1)) ∧
          b2.content = String.mk (joinLines (trimBlanks seg2)))
    ∧ splitText [("#", "Header 1")] "# A\nx\n# A\ny"
        = [⟨[("Header 1", "A")], "x"⟩, ⟨[("Header 1", "A")], "y"⟩] := by
  refine ⟨?_, header_between_consecutive, by decide⟩
  intro rules doc
  have hmap : (splitText rules doc).map Block.content
      = (chunksOf rules (toLines doc)).flatMap emitChunk := by
    rw [← runContents_eq_flatMap]
    exact splitLinesLoop_map_content rules (toLines doc) [] []
  refine ⟨hmap, ?_⟩
  calc (splitText rules doc).length
      = ((splitText rules doc).map Block.content).length := (List.length_map _ _).symm
    _ = ((chunksOf rules (toLines doc)).flatMap emitChunk).length := by rw [hmap]
    _ = (chunksOf rules (toLines doc)).countP (fun c => !(emitChunk c).isEmpty) :=
        flatMap_length_countP emitChunk emitChunk_length_le _

/-- C3 witness: for the concrete header-restating document, a header line
stands between its two consecutive blocks. -/
theorem c3_flush_on_header_witness :
    ∃ (l1 seg1 : List Line) (hline : Line) (l2 seg2 l3 : List Line),
      toLines "# A\nx\n# A\ny" = l1 ++ seg1 ++ hline :: (l2 ++ seg2 ++ l3) ∧
      (classify [("#", "Header 1")] hline).isSome = true ∧
      trimBlanks seg1 ≠ [] ∧ trimBlanks seg2 ≠ [] ∧
      (Block.mk [("Header 1", "A")] "x").content = String.mk (joinLines (trimBlanks seg1)) ∧
      (Block.mk [("Header 1", "A")] "y").content = String.mk (joinLines (trimBlanks seg2)) :=
  c3_flush_on_header.2.1 [("#", "Header 1")] "# A\nx\n# A\ny" []
    ⟨[("Header 1", "A")], "x"⟩ ⟨[("Header 1", "A")], "y"⟩ [] (by decide)

/-- C4: every emitted block's content is one maximal run of consecutive
content lines, joined with the line separator after stripping the leading
and trailing fully-blank lines — and concretely, the interior blank line
between the Jim and Joe lines of the notebook document is preserved in the
first block. -/
theorem c4_content_trim :
    (∀ (rules : List Rule) (doc : String) (b : Block), b ∈ splitText rules doc →
        ∃ seg, Chunk.contentRun seg ∈ chunksOf rules (toLines doc)
          ∧ b.content = String.mk (joinLines (trimBlanks seg)))
    ∧ (splitText nbRules nbDoc).head? =
        some ⟨[("Header 1", "Foo"), ("Header 2", "Bar")], "Hi this is Jim\n\nHi this is Joe"⟩ := by
  constructor
  · intro rules doc b hb
    have hmap : b.content ∈ (splitText rules doc).map Block.content :=
      List.mem_map_of_mem _ hb
    rw [splitText] at hmap
    rw [splitLinesLoop_map_content rules (toLines doc) [] []] at hmap
    obtain ⟨seg, hmem, _, hx⟩ := mem_runContents hmap
    exact ⟨seg, hmem, hx⟩
  · decide

/-- C4 witness: the blocks of a concrete document arise as trimmed joined
content runs. -/
theorem c4_content_trim_witness :
    ∃ seg, Chunk.contentRun seg ∈ chunksOf [("#", "Header 1")] (toLines "# A\nx")
      ∧ (Block.mk [("Header 1", "A")] "x").content = String.mk (joinLines (trimBlanks seg)) :=
  c4_content_trim.1 [("#", "Header 1")] "# A\nx" ⟨[("Header 1", "A")], "x"⟩ (by decide)

/-- C7: near round-trip — the document's lines are tiled exactly, in order
and position, by its header lines and its maximal content runs, and the
emitted contents are precisely those runs, joined, after the per-block
blank-line trimming. -/
theorem c7_round_trip (rules : List Rule) (doc : String) :
    (chunksOf rules (toLines doc)).flatMap chunkLines = toLines doc
    ∧ (splitText rules doc).map Block.content = runContents [] (chunksOf rules (toLines doc))
    ∧ (∀ l, Chunk.header l ∈ chunksOf rules (toLines doc) → (classify rules l).isSome = true)
    ∧ (∀ seg, Chunk.contentRun seg ∈ chunksOf rules (toLines doc) →
        ∀ l ∈ seg, classify rules l = none) :=
  ⟨chunksOf_flatMap rules (toLines doc),
   splitLinesLoop_map_content rules (toLines doc) [] [],
   (chunksOf_classification rules (toLines doc)).1,
   (chunksOf_classification rules (toLines doc)).2⟩

/-- C7 witness: a concrete header line of a concrete document is indeed
classified as a header. -/
theorem c7_round_trip_witness :
    (classify [("#", "Header 1")] ("# A".data)).isSome = true :=
  (c7_round_trip [("#", "Header 1")] "# A\nx").2.2.1 ("# A".data) (by decide)

/-! ## Scenario A (C1) -/

/-- C1 counterexample: on Scenario A's input the model does not return the
claimed pair of blocks — the Molly line's leading space survives, because
the trim policy strips only fully-blank lines. -/
theorem c1_scenarioA_counterexample :
    splitText scenarioARules scenarioADoc
      ≠ [⟨[("Header 1", "Foo"), ("Header 2", "Bar")], "Hi this is Jim  \nHi this is Joe"⟩,
         ⟨[("Header 1", "Foo"), ("Header 2", "Baz")], "Hi this is Molly"⟩] := by
  decide

/-- C1 as amended: Scenario A returns exactly two blocks, in order, with the
claimed metadata and contents — except that the second block's content is
" Hi this is Molly", its leading space preserved verbatim. -/
theorem c1_scenarioA :
    splitText scenarioARules scenarioADoc
      = [⟨[("Header 1", "Foo"), ("Header 2", "Bar")], "Hi this is Jim  \nHi this is Joe"⟩,
         ⟨[("Header 1", "Foo"), ("Header 2", "Baz")], " Hi this is Molly"⟩] := by
  decide

/-! ## The scope stack (C2) -/

theorem lookup_append_right {β : Type} {xs ys : List (Nat × β)} {a : Nat}
    (h : ∀ e ∈ xs, e.1 ≠ a) : List.lookup a (xs ++ ys) = List.lookup a ys := by
  induction xs with
  | nil => rfl
  | cons e es ih =>
    obtain ⟨k, b⟩ := e
    have hk : (a == k) = false := by
      have hne := h (k, b) (List.mem_cons_self _ _)
      simp at hne ⊢
      omega
    rw [List.cons_append]
    simp only [List.lookup, hk]
    exact ih (fun e he => h e (List.mem_cons_of_mem _ he))

theorem lookup_applyHeader_self (scope : Scope) (r : Nat) (k t : String) :
    List.lookup r (applyHeader scope r k t) = some (k, t) := by
  rw [applyHeader, lookup_append_right]
  · simp [List.lookup]
  · intro e he
    rw [List.mem_filter] at he
    have h2 := he.2
    simp at h2
    omega

theorem lookup_applyHeader_gt (scope : Scope) (r : Nat) (k t : String) (r' : Nat)
    (h : r < r') : List.lookup r' (applyHeader scope r k t) = none := by
  rw [applyHeader, lookup_append_right]
  · have hne : (r' == r) = false := by
      simp
      omega
    simp [List.lookup, hne]
  · intro e he
    rw [List.mem_filter] at he
    have h2 := he.2
    simp at h2
    omega

theorem lookup_applyHeader_lt (scope : Scope) (r : Nat) (k t : String) (r' : Nat)
    (h : r' < r) : List.lookup r' (applyHeader scope r k t) = List.lookup r' scope := by
  rw [applyHeader]
  induction scope with
  | nil =>
    have hne : (r' == r) = false := by
      simp
      omega
    simp [List.lookup, hne]
  | cons e es ih =>
    obtain ⟨k0, v0⟩ := e
    by_cases hk : k0 < r
    · rw [show ((k0, v0) :: es).filter (fun e => e.1 < r) = (k0, v0) :: es.filter (fun e => e.1 < r) from by simp [List.filter_cons, hk]]
      rw [List.cons_append]
      rcases hbeq : (r' == k0) with _ | _
      · simp only [List.lookup, hbeq]
        exact ih
      · simp only [List.lookup, hbeq]
    · rw [show ((k0, v0) :: es).filter (fun e => e.1 < r) = es.filter (fun e => e.1 < r) from by simp [List.filter_cons, hk]]
      have hne : (r' == k0) = false := by
        simp at hk ⊢
        omega
      simp only [List.lookup, hne]
      exact ih

/-- C2: `applyHeader` at rank R sets the scope entry at R to the new title,
discards every entry at a rank strictly greater than R, and leaves every
entry at a rank strictly below R unchanged; concretely, in the notebook
document the rank-2 Baz header closes the rank-3 Boo section, so the final
block's metadata holds only the Header 1 and Header 2 keys and the
"Header 3" key is absent. -/
theorem c2_scope_update :
    (∀ (scope : Scope) (r : Nat) (k t : String),
        List.lookup r (applyHeader scope r k t) = some (k, t))
    ∧ (∀ (scope : Scope) (r : Nat) (k t : String) (r' : Nat), r < r' →
        List.lookup r' (applyHeader scope r k t) = none)
    ∧ (∀ (scope : Scope) (r : Nat) (k t : String) (r' : Nat), r' < r →
        List.lookup r' (applyHeader scope r k t) = List.lookup r' scope)
    ∧ (splitText nbRules nbDoc).getLast? =
        some ⟨[("Header 1", "Foo"), ("Header 2", "Baz")], " Hi this is Molly"⟩
    ∧ List.lookup "Header 3" [("Header 1", "Foo"), ("Header 2", "Baz")] = none := by
  refine ⟨lookup_applyHeader_self, lookup_applyHeader_gt, lookup_applyHeader_lt, ?_, by decide⟩
  decide

/-- C2 witness: applying the rank-2 Baz header over the Foo/Bar/Boo stack
leaves no entry at rank 3. -/
theorem c2_scope_update_witness :
    List.lookup 3 (applyHeader [(1, "Header 1", "Foo"), (2, "Header 2", "Bar"),
      (3, "Header 3", "Boo")] 2 "Header 2" "Baz") = none :=
  c2_scope_update.2.1 [(1, "Header 1", "Foo"), (2, "Header 2", "Bar"), (3, "Header 3", "Boo")]
    2 "Header 2" "Baz" 3 (by decide)

/-! ## Lines and their round trip (towards C8) -/

theorem not_nl_mem_splitOnNL :
    ∀ (cs : List Char) (l : Line), l ∈ splitOnNL cs → '\n' ∉ l := by
  intro cs
  induction cs with
  | nil =>
    intro l h
    rw [splitOnNL, List.mem_singleton] at h
    rw [h]
    simp
  | cons c cs ih =>
    intro l h
    by_cases hc : c = '\n'
    · rw [splitOnNL, if_pos hc, List.mem_cons] at h
      rcases h with h | h
      · rw [h]; simp
      · exact ih l h
    · rw [splitOnNL, if_neg hc] at h
      rcases hs : splitOnNL cs with _ | ⟨l0, ls0⟩
      · rw [hs, List.mem_singleton] at h
        rw [h]
        intro hm
        rw [List.mem_singleton] at hm
        exact hc hm.symm
      · rw [hs, List.mem_cons] at h
        rcases h with h | h
        · rw [h]
          intro hm
          rcases List.mem_cons.1 hm with h1 | h1
          · exact hc h1.symm
          · exact ih l0 (hs ▸ List.mem_cons_self _ _) h1
        · exact ih l (hs ▸ List.mem_cons_of_mem _ h)

theorem splitOnNL_append (l : Line) (cs : List Char) (h : '\n' ∉ l) :
    splitOnNL (l ++ '\n' :: cs) = l :: splitOnNL cs := by
  induction l with
  | nil => simp [splitOnNL]
  | cons c cl ih =>
    have hc : ¬(c = '\n') := fun he => h (he ▸ List.mem_cons_self _ _)
    simp only [List.cons_append, splitOnNL, if_neg hc, if_pos rfl, List.append_eq,
      ih (fun hm => h (List.mem_cons_of_mem _ hm))]

theorem splitOnNL_no_nl (l : Line) (h : '\n' ∉ l) : splitOnNL l = [l] := by
  induction l with
  | nil => rfl
  | cons c cl ih =>
    have hc : ¬(c = '\n') := fun he => h (he ▸ List.mem_cons_self _ _)
    simp only [splitOnNL, if_neg hc, ih (fun hm => h (List.mem_cons_of_mem _ hm))]

theorem splitOnNL_joinLines :
    ∀ (seg : List Line), seg ≠ [] → (∀ l ∈ seg, '\n' ∉ l) →
      splitOnNL (joinLines seg) = seg := by
  intro seg
  induction seg with
  | nil => intro h; cases h rfl
  | cons l seg ih =>
    intro _ hnl
    cases seg with
    | nil => exact splitOnNL_no_nl l (hnl l (List.mem_cons_self _ _))
    | cons l2 seg2 =>
      have h2 : l2 :: seg2 ≠ [] := List.cons_ne_nil _ _
      have hjoin : joinLines (l :: l2 :: seg2) = l ++ '\n' :: joinLines (l2 :: seg2) := rfl
      rw [hjoin, splitOnNL_append l _ (hnl l (List.mem_cons_self _ _)),
        ih h2 (fun x hx => hnl x (List.mem_cons_of_mem _ hx))]

theorem dropTrailingCR_idem (l : Line) : dropTrailingCR (dropTrailingCR l) = dropTrailingCR l := by
  rw [dropTrailingCR, dropTrailingCR, List.reverse_reverse, List.dropWhile_idempotent]

theorem mem_dropTrailingCR {c : Char} {l : Line} (h : c ∈ dropTrailingCR l) : c ∈ l := by
  rw [dropTrailingCR, List.mem_reverse] at h
  exact List.mem_reverse.1 (List.Sublist.mem h (List.dropWhile_sublist _))

theorem mem_toLines {s : String} {l : Line} (h : l ∈ toLines s) :
    '\n' ∉ l ∧ dropTrailingCR l = l := by
  simp only [toLines] at h
  obtain ⟨l0, hl0, hmap⟩ := List.mem_map.1 h
  have hl0' : l0 ∈ splitOnNL s.data := by
    by_cases hif : (splitOnNL s.data).getLast? = some ([] : Line)
    · rw [if_pos hif] at hl0
      exact List.Sublist.mem hl0 (List.dropLast_sublist _)
    · rw [if_neg hif] at hl0
      exact hl0
  constructor
  · intro hnl
    exact not_nl_mem_splitOnNL s.data l0 hl0' (mem_dropTrailingCR (hmap ▸ hnl))
  · rw [← hmap]
    exact dropTrailingCR_idem l0

theorem toLines_mk_joinLines (seg : List Line) (hne : seg ≠ [])
    (hnl : ∀ l ∈ seg, '\n' ∉ l) (hcr : ∀ l ∈ seg, dropTrailingCR l = l)
    (hlast : seg.getLast? ≠ some []) :
    toLines (String.mk (joinLines seg)) = seg := by
  simp only [toLines]
  rw [splitOnNL_joinLines seg hne hnl, if_neg hlast]
  rw [List.map_congr_left hcr]
  exact List.map_id' seg

/-- C8: re-splitting the content of any emitted block that contains no
header line yields exactly one block, with the empty metadata mapping and
the same content. -/
theorem c8_idempotent (rules : List Rule) (doc : String) (b : Block)
    (hb : b ∈ splitText rules doc)
    (hnoheader : ∀ l ∈ toLines b.content, classify rules l = none) :
    splitText rules b.content = [⟨[], b.content⟩] := by
  obtain ⟨buf', hne, hcontent, hmem⟩ := mem_splitLinesLoop (toLines doc) [] [] hb
  have hmem' : ∀ l ∈ buf', l ∈ toLines doc := by
    intro l hl
    rcases hmem l hl with h | h
    · cases h
    · exact h
  have htmem : ∀ l ∈ trimBlanks buf', '\n' ∉ l ∧ dropTrailingCR l = l :=
    fun l hl => mem_toLines (hmem' l (mem_trimBlanks hl))
  have hlast : (trimBlanks buf').getLast? ≠ some [] := by
    intro hsome
    have hbl := trimBlanks_getLast hsome
    simp [isBlankLine] at hbl
  have hto : toLines b.content = trimBlanks buf' := by
    rw [hcontent]
    exact toLines_mk_joinLines (trimBlanks buf') hne
      (fun l hl => (htmem l hl).1) (fun l hl => (htmem l hl).2) hlast
  have hnone : ∀ l ∈ trimBlanks buf', classify rules l = none :=
    fun l hl => hnoheader l (hto ▸ hl)
  rw [splitText, hto, splitLinesLoop_no_header rules _ [] [] hnone, List.nil_append, emit]
  rw [trimBlanks_idem buf']
  have hfalse : (trimBlanks buf').isEmpty = false := by
    rcases htl : trimBlanks buf' with _ | _
    · exact absurd htl hne
    · rfl
  simp only [hfalse, if_false]
  rw [← hcontent]
  rfl

/-- C8 witness: re-splitting a concrete emitted header-free block. -/
theorem c8_idempotent_witness :
    splitText [("#", "Header 1")] (Block.mk [("Header 1", "A")] "x").content
      = [⟨[], (Block.mk [("Header 1", "A")] "x").content⟩] :=
  c8_idempotent [("#", "Header 1")] "# A\nx" ⟨[("Header 1", "A")], "x"⟩ (by decide) (by decide)

/-! ## Classification (C5) -/

theorem matchesMarker_iff (m s : Line) :
    matchesMarker m s = true ↔
      (s.take m.length = m ∧
        ∃ c rest, s.drop m.length = c :: rest ∧ c.isWhitespace = true) := by
  rw [matchesMarker, Bool.and_eq_true]
  constructor
  · rintro ⟨h1, h2⟩
    refine ⟨by simpa using h1, ?_⟩
    rcases hd : s.drop m.length with _ | ⟨c, rest⟩
    · rw [hd] at h2
      cases h2
    · rw [hd] at h2
      exact ⟨c, rest, rfl, h2⟩
  · rintro ⟨h1, c, rest, hd, hw⟩
    refine ⟨by simpa using h1, ?_⟩
    rw [hd]
    exact hw

theorem bestRule_none {s : Line} :
    ∀ {rules : List Rule}, bestRule s rules = none →
      ∀ r ∈ rules, matchesMarker r.1.data s = false := by
  intro rules
  induction rules with
  | nil => intro _ r hr; cases hr
  | cons r0 rs ih =>
    intro h r hr
    rcases hb : bestRule s rs with _ | b
    · simp only [bestRule, hb] at h
      by_cases hm : matchesMarker r0.1.data s = true
      · rw [if_pos hm] at h
        cases h
      · rcases List.mem_cons.1 hr with h1 | h1
        · rw [h1]
          exact Bool.eq_false_iff.2 hm
        · exact ih hb r h1
    · simp only [bestRule, hb] at h
      by_cases hc : matchesMarker r0.1.data s = true ∧ b.1.length ≤ r0.1.length
      · rw [if_pos hc] at h
        cases h
      · rw [if_neg hc] at h
        cases h

theorem bestRule_some {s : Line} :
    ∀ {rules : List Rule} {b : Rule}, bestRule s rules = some b →
      b ∈ rules ∧ matchesMarker b.1.data s = true ∧
        ∀ r ∈ rules, matchesMarker r.1.data s = true → r.1.length ≤ b.1.length := by
  intro rules
  induction rules with
  | nil => intro b h; cases h
  | cons r0 rs ih =>
    intro b h
    rcases hb : bestRule s rs with _ | b'
    · simp only [bestRule, hb] at h
      by_cases hm : matchesMarker r0.1.data s = true
      · rw [if_pos hm] at h
        injection h with h
        subst h
        refine ⟨List.mem_cons_self _ _, hm, ?_⟩
        intro r hr hmr
        rcases List.mem_cons.1 hr with h1 | h1
        · rw [h1]
        · rw [bestRule_none hb r h1] at hmr
          cases hmr
      · rw [if_neg hm] at h
        cases h
    · simp only [bestRule, hb] at h
      obtain ⟨hbmem, hbm, hbmax⟩ := ih hb
      by_cases hc : matchesMarker r0.1.data s = true ∧ b'.1.length ≤ r0.1.length
      · rw [if_pos hc] at h
        injection h with h
        subst h
        refine ⟨List.mem_cons_self _ _, hc.1, ?_⟩
        intro r hr hmr
        rcases List.mem_cons.1 hr with h1 | h1
        · rw [h1]
        · exact Nat.le_trans (hbmax r h1 hmr) hc.2
      · rw [if_neg hc] at h
        injection h with h
        rw [← h]
        refine ⟨List.mem_cons_of_mem _ hbmem, hbm, ?_⟩
        intro r hr hmr
        rcases List.mem_cons.1 hr with h1 | h1
        · rw [h1]
          rcases Nat.le_total r0.1.length b'.1.length with hle | hle
          · exact hle
          · rw [h1] at hmr
            exact absurd ⟨hmr, hle⟩ hc
        · exact hbmax r h1 hmr

theorem bestRule_isSome_iff {s : Line} {rules : List Rule} :
    (bestRule s rules).isSome = true ↔ ∃ r ∈ rules, matchesMarker r.1.data s = true := by
  constructor
  · intro h
    rcases hb : bestRule s rules with _ | b
    · rw [hb] at h
      cases h
    · obtain ⟨hmem, hm, _⟩ := bestRule_some hb
      exact ⟨b, hmem, hm⟩
  · rintro ⟨r, hr, hm⟩
    rcases hb : bestRule s rules with _ | b
    · rw [bestRule_none hb r hr] at hm
      cases hm
    · rfl

theorem classify_isSome_iff {rules : List Rule} {l : Line} :
    (classify rules l).isSome = true ↔
      ∃ r ∈ rules, matchesMarker r.1.data (stripLeadingWS l) = true := by
  rw [classify]
  rw [show ((bestRule (stripLeadingWS l) rules).map fun b =>
      (b.1.length, b.2, String.mk (trimLine ((stripLeadingWS l).drop b.1.length)))).isSome
      = (bestRule (stripLeadingWS l) rules).isSome from by simp]
  exact bestRule_isSome_iff

theorem classify_some {rules : List Rule} {l : Line} {rank : Nat} {key title : String}
    (h : classify rules l = some (rank, key, title)) :
    ∃ r ∈ rules, r.1.length = rank ∧ r.2 = key ∧
      matchesMarker r.1.data (stripLeadingWS l) = true ∧
      ∀ r' ∈ rules, matchesMarker r'.1.data (stripLeadingWS l) = true →
        r'.1.length ≤ rank := by
  rw [classify] at h
  rcases hb : bestRule (stripLeadingWS l) rules with _ | b
  · rw [hb] at h
    cases h
  · rw [hb] at h
    have h3 : b.1.length = rank ∧ b.2 = key := by
      have := Option.some.inj h
      exact ⟨congrArg Prod.fst this, congrArg Prod.fst (congrArg Prod.snd this)⟩
    obtain ⟨hmem, hm, hmax⟩ := bestRule_some hb
    exact ⟨b, hmem, h3.1, h3.2, hm, fun r' hr' hm' => h3.1 ▸ hmax r' hr' hm'⟩

/-- C5: a line is classified as a header exactly when, after stripping its
leading whitespace, it starts with a configured marker followed immediately
by at least one whitespace character; the classified rank is that of a
longest matching configured marker; and concretely a hash-hash-hash Boo
line with all three rules is classified at rank 3 while a bare hash mark
with no following whitespace is content. -/
theorem c5_classification :
    (∀ (rules : List Rule) (l : Line),
        (classify rules l).isSome = true ↔
          ∃ r ∈ rules, (stripLeadingWS l).take r.1.data.length = r.1.data ∧
            ∃ c rest, (stripLeadingWS l).drop r.1.data.length = c :: rest ∧
              c.isWhitespace = true)
    ∧ (∀ (rules : List Rule) (l : Line) (rank : Nat) (key title : String),
        classify rules l = some (rank, key, title) →
        ∃ r ∈ rules, r.1.length = rank ∧ r.2 = key ∧
          ∀ r' ∈ rules,
            ((stripLeadingWS l).take r'.1.data.length = r'.1.data ∧
              ∃ c rest, (stripLeadingWS l).drop r'.1.data.length = c :: rest ∧
                c.isWhitespace = true) →
            r'.1.length ≤ rank)
    ∧ classify [("#", "Header 1"), ("##", "Header 2"), ("###", "Header 3")] ("### Boo".data)
        = some (3, "Header 3", "Boo")
    ∧ classify [("#", "Header 1"), ("##", "Header 2"), ("###", "Header 3")] ("#".data)
        = none := by
  refine ⟨?_, ?_, by decide, by decide⟩
  · intro rules l
    rw [classify_isSome_iff]
    constructor
    · rintro ⟨r, hr, hm⟩
      exact ⟨r, hr, (matchesMarker_iff _ _).1 hm⟩
    · rintro ⟨r, hr, hm⟩
      exact ⟨r, hr, (matchesMarker_iff _ _).2 hm⟩
  · intro rules l rank key title h
    obtain ⟨r, hr, h1, h2, _, hmax⟩ := classify_some h
    exact ⟨r, hr, h1, h2, fun r' hr' hm' => hmax r' hr' ((matchesMarker_iff _ _).2 hm')⟩

/-- C5 witness: the classification of the rank-3 Boo header instantiated
concretely. -/
theorem c5_classification_witness :
    ∃ r ∈ [("#", "Header 1"), ("##", "Header 2"), ("###", "Header 3")],
      (r : Rule).1.length = 3 ∧ r.2 = "Header 3" ∧
        ∀ r' ∈ [("#", "Header 1"), ("##", "Header 2"), ("###", "Header 3")],
          ((stripLeadingWS ("### Boo".data)).take r'.1.data.length = r'.1.data ∧
            ∃ c rest, (stripLeadingWS ("### Boo".data)).drop r'.1.data.length = c :: rest ∧
              c.isWhitespace = true) →
          (r' : Rule).1.length ≤ 3 :=
  c5_classification.2.1 [("#", "Header 1"), ("##", "Header 2"), ("###", "Header 3")]
    ("### Boo".data) 3 "Header 3" "Boo" (by decide)

/-! ## Windowing and metadata propagation (C9, C10) -/

/-- C9: the windowing splitter at window size 10 and overlap 0 cuts
"Markdown[9" as the first window of the History text, and each window of a
block is paired with the block's metadata copied verbatim. -/
theorem c9_windowing :
    (split historyText 10 0).head? = some "Markdown[9"
    ∧ ∀ (b : Block) (x : String × List (String × String)),
        x ∈ windowsWithMeta b 10 0 → x.2 = b.metadata := by
  constructor
  · decide
  · intro b x hx
    rw [windowsWithMeta] at hx
    obtain ⟨s, _, hs⟩ := List.mem_map.1 hx
    rw [← hs]

/-- C9 witness: a concrete window of a concrete block carries that block's
metadata. -/
theorem c9_windowing_witness :
    (("abc", [("Header 1", "Intro")]) : String × List (String × String)).2
      = (Block.mk [("Header 1", "Intro")] "abc").metadata :=
  c9_windowing.2 ⟨[("Header 1", "Intro")], "abc"⟩ ("abc", [("Header 1", "Intro")]) (by decide)

theorem allSplits_length (blocks : List Block) (windowSize overlap : Nat) :
    (allSplits blocks windowSize overlap).length
      = (allMetadatas blocks windowSize overlap).length := by
  induction blocks with
  | nil => rfl
  | cons b bs ih =>
    have h1 : allSplits (b :: bs) windowSize overlap
        = split b.content windowSize overlap ++ allSplits bs windowSize overlap := by
      rw [allSplits, allSplits, List.flatMap_cons]
    have h2 : allMetadatas (b :: bs) windowSize overlap
        = (split b.content windowSize overlap).map (fun _ => b.metadata)
            ++ allMetadatas bs windowSize overlap := by
      rw [allMetadatas, allMetadatas, List.flatMap_cons]
    rw [h1, h2, List.length_append, List.length_append, List.length_map, ih]

theorem allMetadatas_eq_sourceBlocks (blocks : List Block) (windowSize overlap : Nat) :
    allMetadatas blocks windowSize overlap
      = (sourceBlocks blocks windowSize overlap).map Block.metadata := by
  induction blocks with
  | nil => rfl
  | cons b bs ih =>
    have h2 : allMetadatas (b :: bs) windowSize overlap
        = (split b.content windowSize overlap).map (fun _ => b.metadata)
            ++ allMetadatas bs windowSize overlap := by
      rw [allMetadatas, allMetadatas, List.flatMap_cons]
    have h3 : sourceBlocks (b :: bs) windowSize overlap
        = (split b.content windowSize overlap).map (fun _ => b)
            ++ sourceBlocks bs windowSize overlap := by
      rw [sourceBlocks, sourceBlocks, List.flatMap_cons]
    rw [h2, h3, List.map_append, List.map_map, ih]
    simp [Function.comp_def]

/-- C10: the notebook's composition loop pairs every window with exactly
one metadata record, in block order — the two accumulated lists have equal
length, and the metadata at each index is the metadata of the block the
window at that index was produced from. -/
theorem c10_window_metadata_pairing (blocks : List Block) (windowSize overlap : Nat) :
    (allSplits blocks windowSize overlap).length
      = (allMetadatas blocks windowSize overlap).length
    ∧ allMetadatas blocks windowSize overlap
      = (sourceBlocks blocks windowSize overlap).map Block.metadata :=
  ⟨allSplits_length blocks windowSize overlap,
   allMetadatas_eq_sourceBlocks blocks windowSize overlap⟩

end MarkdownSplit
